import Mathlib

/-!
Verification of the view-materialization engine and the token-categorization
engine of the Whitex AI NLP processor, as a shallow embedding in Lean 4.

Conventions used throughout:
* Python `dict` / `collections.OrderedDict` instances are embedded as
  association lists (`List (key × value)`) in insertion order, since Python
  dictionaries preserve insertion order.
* The `functools.lru_cache` store is embedded as an association list kept in
  most-recently-used-first order, with the fixed capacity 128 of the source.
* Machine integers are embedded as `Nat` (all the quantities involved are
  non-negative counts, ages in weeks, identifiers).
-/

set_option maxRecDepth 100000

namespace Whitex

/-- Generic lookup in an association list (embeds Python `dict.get` /
`collections.OrderedDict` membership, first occurrence wins). -/
def alookup {κ β : Type} [DecidableEq κ] (k : κ) : List (κ × β) → Option β
  | [] => none
  | p :: ps => if p.1 = k then some p.2 else alookup k ps

@[simp] theorem alookup_nil {κ β : Type} [DecidableEq κ] (k : κ) :
    alookup (β := β) k [] = none := rfl

theorem alookup_cons {κ β : Type} [DecidableEq κ] (k : κ) (p : κ × β) (ps : List (κ × β)) :
    alookup k (p :: ps) = if p.1 = k then some p.2 else alookup k ps := rfl

/-! ## Transforms and the view-graph resolver (spec §3, §4.1)

`Transform` embeds the data model of the spec: an immutable value made of a
kind (filter or enrichment) and parameters; two transforms are equal iff kind
and parameters match.  Parameters are abstracted as a `Nat` code. -/

inductive TransformKind : Type
  | filter
  | enrichment
  deriving DecidableEq, Repr

structure Transform : Type where
  kind : TransformKind
  params : Nat
  deriving DecidableEq, Repr

/-- DataView identifiers are abstracted as naturals. -/
abbrev DataViewId := Nat

/-- TransformIndex of one dataset: association list from a data-view id to the
ordered transform list that reaches it, in registration (recency) order. -/
abbrev TransformIndex := List (DataViewId × List Transform)

/-- Candidate test of the resolver: an indexed transform list is usable as a
base iff it is non-empty and is a leading segment of the target list, i.e. it
equals `target[:k]` for `k` its own length. -/
def goodCand (target : List Transform) (p : DataViewId × List Transform) : Prop :=
  p.2 ≠ [] ∧ p.2 = target.take p.2.length

instance (target : List Transform) (p : DataViewId × List Transform) :
    Decidable (goodCand target p) := by
  unfold goodCand
  infer_instance

/-- One step of the resolver's scan over the index: keep the candidate with
the longest matching leading segment, breaking ties toward the entry seen
later (the more recently registered view). -/
def bestStep (target : List Transform) (best : Option (DataViewId × List Transform))
    (p : DataViewId × List Transform) : Option (DataViewId × List Transform) :=
  if goodCand target p then
    match best with
    | none => some p
    | some q => if q.2.length ≤ p.2.length then some p else some q
  else best

/-- Modelled from the spec: `Analyzer.get_id_of_best_base_df`.  Its body is
absent from the source (`analyzer_lib.py` ends inside `_get_df`, which calls
it at line 80); spec §4.1 specifies it: among all indexed views select the one
whose transform list is the longest ordered leading segment of the target,
return `(None, target)` when no indexed view has a non-empty matching leading
segment, otherwise the chosen id together with the remaining transforms. -/
def get_id_of_best_base_df (target : List Transform) (index : TransformIndex) :
    Option DataViewId × List Transform :=
  match index.foldl (bestStep target) none with
  | none => (none, target)
  | some p => (some p.1, target.drop p.2.length)

theorem bestStep_eq_none {target : List Transform} {acc : Option (DataViewId × List Transform)}
    {p : DataViewId × List Transform} (h : bestStep target acc p = none) :
    acc = none ∧ ¬ goodCand target p := by
  by_cases hg : goodCand target p
  · exfalso
    cases acc <;> simp [bestStep, hg] at h
    split at h <;> simp at h
  · simpa [bestStep, hg] using h

/-- Full characterization of the resolver's fold over the index. -/
theorem bestFold_spec (target : List Transform) (l : TransformIndex) :
    ∀ acc : Option (DataViewId × List Transform),
      (l.foldl (bestStep target) acc = none →
        acc = none ∧ ∀ p ∈ l, ¬ goodCand target p) ∧
      (∀ q, l.foldl (bestStep target) acc = some q →
        (acc = some q ∨ (q ∈ l ∧ goodCand target q)) ∧
        (∀ p ∈ l, goodCand target p → p.2.length ≤ q.2.length) ∧
        (∀ a, acc = some a → a.2.length ≤ q.2.length)) := by
  induction l with
  | nil =>
    intro acc
    constructor
    · intro h
      exact ⟨h, by simp⟩
    · intro q h
      simp only [List.foldl_nil] at h
      refine ⟨Or.inl h, by simp, ?_⟩
      intro a ha
      rw [h] at ha
      cases ha
      exact le_refl _
  | cons p l ih =>
    intro acc
    have ihs := ih (bestStep target acc p)
    constructor
    · intro h
      simp only [List.foldl_cons] at h
      obtain ⟨hacc', hall⟩ := ihs.1 h
      obtain ⟨haccn, hng⟩ := bestStep_eq_none hacc'
      refine ⟨haccn, ?_⟩
      intro x hx
      rcases List.mem_cons.mp hx with hx | hx
      · subst hx
        exact hng
      · exact hall x hx
    · intro q h
      simp only [List.foldl_cons] at h
      obtain ⟨hdisj, hbound, haccb⟩ := ihs.2 q h
      by_cases hg : goodCand target p
      · cases acc with
        | none =>
          have hstep : bestStep target none p = some p := by simp [bestStep, hg]
          rw [hstep] at hdisj haccb
          have hpq : p.2.length ≤ q.2.length := haccb p rfl
          constructor
          · rcases hdisj with hq | hq
            · cases hq
              exact Or.inr ⟨List.mem_cons_self _ _, hg⟩
            · exact Or.inr ⟨List.mem_cons_of_mem _ hq.1, hq.2⟩
          refine ⟨?_, by intro a ha; cases ha⟩
          intro x hx hgx
          rcases List.mem_cons.mp hx with hx | hx
          · subst hx
            exact hpq
          · exact hbound x hx hgx
        | some a0 =>
          by_cases hle : a0.2.length ≤ p.2.length
          · have hstep : bestStep target (some a0) p = some p := by
              simp [bestStep, hg, hle]
            rw [hstep] at hdisj haccb
            have hpq : p.2.length ≤ q.2.length := haccb p rfl
            constructor
            · rcases hdisj with hq | hq
              · cases hq
                exact Or.inr ⟨List.mem_cons_self _ _, hg⟩
              · exact Or.inr ⟨List.mem_cons_of_mem _ hq.1, hq.2⟩
            refine ⟨?_, ?_⟩
            · intro x hx hgx
              rcases List.mem_cons.mp hx with hx | hx
              · subst hx
                exact hpq
              · exact hbound x hx hgx
            · intro a ha
              cases ha
              exact le_trans hle hpq
          · have hstep : bestStep target (some a0) p = some a0 := by
              simp [bestStep, hg, hle]
            rw [hstep] at hdisj haccb
            have haq : a0.2.length ≤ q.2.length := haccb a0 rfl
            constructor
            · rcases hdisj with hq | hq
              · exact Or.inl hq
              · exact Or.inr ⟨List.mem_cons_of_mem _ hq.1, hq.2⟩
            refine ⟨?_, ?_⟩
            · intro x hx hgx
              rcases List.mem_cons.mp hx with hx | hx
              · subst hx
                exact le_trans (by omega) haq
              · exact hbound x hx hgx
            · intro a ha
              cases ha
              exact haq
      · have hstep : bestStep target acc p = acc := by simp [bestStep, hg]
        rw [hstep] at hdisj haccb
        constructor
        · rcases hdisj with hq | hq
          · exact Or.inl hq
          · exact Or.inr ⟨List.mem_cons_of_mem _ hq.1, hq.2⟩
        refine ⟨?_, haccb⟩
        intro x hx hgx
        rcases List.mem_cons.mp hx with hx | hx
        · subst hx
          exact absurd hgx hg
        · exact hbound x hx hgx

/-- Membership form of the resolver's answer, shared by the materializer
lemmas: an id returned by the resolver is registered in the index with a
candidate transform list. -/
theorem resolver_mem {target : List Transform} {index : TransformIndex} {v : DataViewId}
    (h : (get_id_of_best_base_df target index).1 = some v) :
    ∃ ts, (v, ts) ∈ index ∧ goodCand target (v, ts) := by
  unfold get_id_of_best_base_df at h
  rcases hf : index.foldl (bestStep target) none with _ | q
  · rw [hf] at h
    simp at h
  · rw [hf] at h
    simp only at h
    cases h
    obtain ⟨hdisj, _, _⟩ := (bestFold_spec target index none).2 q hf
    rcases hdisj with hq | hq
    · cases hq
    · exact ⟨q.2, by simpa using hq.1, hq.2⟩

/-- C1: the resolver returns an indexed view whose ordered transform list is a
maximal non-empty leading segment of the target, and `(None, target)` exactly
when no indexed view has a non-empty matching leading segment. -/
theorem C1_resolver_longest_ordered_match (target : List Transform) (index : TransformIndex) :
    (∀ v : DataViewId, (get_id_of_best_base_df target index).1 = some v →
      ∃ ts, (v, ts) ∈ index ∧ ts ≠ [] ∧ ts = target.take ts.length ∧
        (∀ q ∈ index, q.2 = target.take q.2.length → q.2.length ≤ ts.length) ∧
        (get_id_of_best_base_df target index).2 = target.drop ts.length) ∧
    ((get_id_of_best_base_df target index).1 = none →
      (∀ q ∈ index, q.2 = target.take q.2.length → q.2 = []) ∧
      (get_id_of_best_base_df target index).2 = target) := by
  constructor
  · intro v h
    unfold get_id_of_best_base_df at h ⊢
    rcases hf : index.foldl (bestStep target) none with _ | q
    · rw [hf] at h
      simp at h
    · rw [hf] at h
      simp only at h
      cases h
      obtain ⟨hdisj, hbound, _⟩ := (bestFold_spec target index none).2 q hf
      rcases hdisj with hq | hq
      · cases hq
      refine ⟨q.2, by simpa using hq.1, hq.2.1, hq.2.2, ?_, by simp⟩
      intro r hr hrt
      by_cases hre : r.2 = []
      · simp [hre]
      · exact hbound r hr ⟨hre, hrt⟩
  · intro h
    unfold get_id_of_best_base_df at h ⊢
    rcases hf : index.foldl (bestStep target) none with _ | q
    · obtain ⟨_, hall⟩ := (bestFold_spec target index none).1 hf
      refine ⟨?_, rfl⟩
      intro r hr hrt
      by_contra hre
      exact hall r hr ⟨hre, hrt⟩
    · rw [hf] at h
      simp at h

/-- Witness for C1 at a concrete index: the target `[f0, f1, f2]` against an
index holding prefixes of lengths 1 and 2 resolves to the length-2 one. -/
theorem C1_resolver_longest_ordered_match_witness :
    ∃ ts, ((7 : DataViewId), ts) ∈
        [((3 : DataViewId), [Transform.mk TransformKind.filter 0]),
         ((7 : DataViewId), [Transform.mk TransformKind.filter 0,
                             Transform.mk TransformKind.enrichment 1])] ∧
      ts ≠ [] ∧
      ts = [Transform.mk TransformKind.filter 0, Transform.mk TransformKind.enrichment 1,
            Transform.mk TransformKind.filter 2].take ts.length ∧
      (∀ q ∈ [((3 : DataViewId), [Transform.mk TransformKind.filter 0]),
              ((7 : DataViewId), [Transform.mk TransformKind.filter 0,
                                  Transform.mk TransformKind.enrichment 1])],
        q.2 = [Transform.mk TransformKind.filter 0, Transform.mk TransformKind.enrichment 1,
               Transform.mk TransformKind.filter 2].take q.2.length →
          q.2.length ≤ ts.length) ∧
      (get_id_of_best_base_df
        [Transform.mk TransformKind.filter 0, Transform.mk TransformKind.enrichment 1,
         Transform.mk TransformKind.filter 2]
        [((3 : DataViewId), [Transform.mk TransformKind.filter 0]),
         ((7 : DataViewId), [Transform.mk TransformKind.filter 0,
                             Transform.mk TransformKind.enrichment 1])]).2 =
        [Transform.mk TransformKind.filter 0, Transform.mk TransformKind.enrichment 1,
         Transform.mk TransformKind.filter 2].drop ts.length :=
  (C1_resolver_longest_ordered_match
    [Transform.mk TransformKind.filter 0, Transform.mk TransformKind.enrichment 1,
     Transform.mk TransformKind.filter 2]
    [((3 : DataViewId), [Transform.mk TransformKind.filter 0]),
     ((7 : DataViewId), [Transform.mk TransformKind.filter 0,
                         Transform.mk TransformKind.enrichment 1])]).1 7 (by decide)

/-! ## The materializer's caches (spec §4.2, §4.3; `Analyzer` of `analyzer_lib.py`)

The source holds two stores that matter here:
* `Analyzer._df_cache_by_dataset = defaultdict(OrderedDict)` (line 66): one
  plain `OrderedDict` per dataset, with no capacity argument and no eviction
  call anywhere in the source — embedded by `odInsert`/`alookup` below.
* `@lru_cache(maxsize=128)` on `Analyzer._get_df` (line 69): the global
  bounded memoization store — embedded by `lruInsert`/`lruTouch`/`alookup`,
  most-recently-used first, capacity 128 as in the source.
The model fixes one dataset (all the claims below are per-dataset statements)
and abstracts dataframes as a type parameter `Df`. -/

/-- Assignment into a Python `dict` / `OrderedDict`: an existing key keeps its
position and gets the new value, a new key is appended at the end.  No entry
is ever evicted. -/
def odInsert {β : Type} (k : Nat) (v : β) : List (Nat × β) → List (Nat × β)
  | [] => [(k, v)]
  | p :: ps => if p.1 = k then (k, v) :: ps else p :: odInsert k v ps

/-- Removal of the (first) entry with the given key, helper for the
most-recently-used reordering of the `lru_cache` store. -/
def eraseKey {β : Type} (k : Nat) : List (Nat × β) → List (Nat × β)
  | [] => []
  | p :: ps => if p.1 = k then ps else p :: eraseKey k ps

/-- Hit bookkeeping of `functools.lru_cache`: the entry found for `k` moves to
the most-recently-used end (the front, in this embedding). -/
def lruTouch {β : Type} (k : Nat) (c : List (Nat × β)) : List (Nat × β) :=
  match alookup k c with
  | none => c
  | some v => (k, v) :: eraseKey k c

/-- Miss bookkeeping of `functools.lru_cache(maxsize=cap)`: when the store is
full the least-recently-used entry (the last, in this embedding) is dropped,
then the new entry becomes the most recent. -/
def lruInsert {β : Type} (cap : Nat) (k : Nat) (v : β) (c : List (Nat × β)) :
    List (Nat × β) :=
  (k, v) :: (if c.length < cap then c else c.dropLast)

/-- Errors of a materialization run. -/
inductive MatErr : Type
  | transformFailed
  | fuelExhausted
  deriving DecidableEq, Repr

/-- State of the caches of one `Analyzer` for one dataset: the global
`lru_cache` store of `_get_df` results, the per-dataset `OrderedDict`
dataframe cache, the per-dataset transform index, and a spy counting
transform applications (spec §8 verifies idempotence with such a spy). -/
structure MatState (Df : Type) : Type where
  lru : List (Nat × Df)
  dfCache : List (Nat × Df)
  index : TransformIndex
  applyCount : Nat
  deriving Repr

/-- Application of a transform chain in list order, counting applications and
propagating the first failure, as the loop at the end of `_get_df` does
(spec §4.3 step 4; a failing transform aborts the run). -/
def applyAll {Df : Type} (A : Transform → Df → Option Df) :
    List Transform → Df → Nat → Except MatErr Df × Nat
  | [], df, cnt => (Except.ok df, cnt)
  | t :: ts, df, cnt =>
    match A t df with
    | none => (Except.error MatErr.transformFailed, cnt + 1)
    | some df' => applyAll A ts df' (cnt + 1)

/-- Commit of a successful materialization (spec §4.3 step 5): the result is
stored in the global `lru_cache` store under the view id, assigned into the
per-dataset `OrderedDict`, and the view is registered in the transform
index. -/
def commitView {Df : Type} (v : DataViewId) (ts : List Transform) (df : Df) (cnt : Nat)
    (s : MatState Df) : MatState Df :=
  { lru := lruInsert 128 v df s.lru
    dfCache := odInsert v df s.dfCache
    index := odInsert v ts s.index
    applyCount := cnt }

/-- Modelled from the spec: `Analyzer._get_df` together with its
`functools.lru_cache(maxsize=128)` wrapper.  The source shows the wrapper,
the per-dataset cache membership test, the resolver call and the branch
choosing between a cached base view (recursing) and the raw base dataframe
(lines 69–93); the tail of the function — the transform-application loop, the
return of a per-dataset cache hit and the commit of the result to the caches
and the transform index — is truncated out of the source and is modelled from
spec §4.3 steps 1, 4 and 5.  `A` interprets transform application (the
transform library is an external collaborator), `V` maps a view id to its
ordered transform list (the data-view handler), `B` is the dataset's base
dataframe, and the fuel bounds the recursion of step 3. -/
def getDfAux {Df : Type} (A : Transform → Df → Option Df) (V : Nat → List Transform)
    (B : Df) : Nat → Nat → MatState Df → Except MatErr Df × MatState Df
  | 0, _, s => (Except.error MatErr.fuelExhausted, s)
  | fuel + 1, v, s =>
    match alookup v s.lru with
    | some df => (Except.ok df, { s with lru := lruTouch v s.lru })
    | none =>
      match alookup v s.dfCache with
      | some df => (Except.ok df, { s with lru := lruInsert 128 v df s.lru })
      | none =>
        match (get_id_of_best_base_df (V v) s.index).1 with
        | some bv =>
          match getDfAux A V B fuel bv s with
          | (Except.error e, s1) => (Except.error e, s1)
          | (Except.ok df0, s1) =>
            match applyAll A (get_id_of_best_base_df (V v) s.index).2 df0 s1.applyCount with
            | (Except.error e, cnt) => (Except.error e, { s1 with applyCount := cnt })
            | (Except.ok df, cnt) => (Except.ok df, commitView v (V v) df cnt s1)
        | none =>
          match applyAll A (V v) B s.applyCount with
          | (Except.error e, cnt) => (Except.error e, { s with applyCount := cnt })
          | (Except.ok df, cnt) => (Except.ok df, commitView v (V v) df cnt s)

/-- A sequence of materialization requests, each run with the given fuel. -/
def matSeq {Df : Type} (A : Transform → Df → Option Df) (V : Nat → List Transform)
    (B : Df) (fuel : Nat) (vs : List Nat) (s : MatState Df) : MatState Df :=
  vs.foldl (fun s v => (getDfAux A V B fuel v s).2) s

theorem length_eraseKey_of_mem {β : Type} {k : Nat} {c : List (Nat × β)} {v : β}
    (h : alookup k c = some v) : (eraseKey k c).length + 1 = c.length := by
  induction c with
  | nil => simp at h
  | cons p ps ih =>
    by_cases hp : p.1 = k
    · simp [eraseKey, hp]
    · rw [alookup_cons, if_neg hp] at h
      simp only [eraseKey, if_neg hp, List.length_cons]
      rw [← ih h]

theorem lruTouch_length {β : Type} (k : Nat) (c : List (Nat × β)) :
    (lruTouch k c).length = c.length := by
  unfold lruTouch
  rcases h : alookup k c with _ | v
  · rfl
  · simpa using length_eraseKey_of_mem h

theorem lruInsert_length_le {β : Type} {k : Nat} {v : β} {c : List (Nat × β)}
    (h : c.length ≤ 128) : (lruInsert 128 k v c).length ≤ 128 := by
  unfold lruInsert
  by_cases hlt : c.length < 128
  · simp only [if_pos hlt, List.length_cons]
    omega
  · simp only [if_neg hlt, List.length_cons, List.length_dropLast]
    omega

/-- Every single materialization step keeps the global `lru_cache` store
within its capacity of 128 entries. -/
theorem getDfAux_lru_length {Df : Type} (A : Transform → Df → Option Df)
    (V : Nat → List Transform) (B : Df) :
    ∀ (fuel v : Nat) (s : MatState Df), s.lru.length ≤ 128 →
      ((getDfAux A V B fuel v s).2).lru.length ≤ 128 := by
  intro fuel
  induction fuel with
  | zero => intro v s hs; exact hs
  | succ fuel ih =>
    intro v s hs
    simp only [getDfAux]
    split
    · simpa [lruTouch_length] using hs
    · split
      · simpa using lruInsert_length_le hs
      · split
        next bv heq3 =>
          split
          next e s1 heq5 =>
            have h := ih bv s hs
            rw [heq5] at h
            simpa using h
          next df0 s1 heq5 =>
            have hs1 : s1.lru.length ≤ 128 := by
              have h := ih bv s hs
              rw [heq5] at h
              exact h
            split
            · simpa using hs1
            · simpa [commitView] using lruInsert_length_le hs1
        next heq3 =>
          split
          · simpa using hs
          · simpa [commitView] using lruInsert_length_le hs

/-- The invariant of `getDfAux_lru_length` carried over a whole sequence of
materialization requests. -/
theorem matSeq_lru_length {Df : Type} (A : Transform → Df → Option Df)
    (V : Nat → List Transform) (B : Df) (fuel : Nat) :
    ∀ (vs : List Nat) (s : MatState Df), s.lru.length ≤ 128 →
      (matSeq A V B fuel vs s).lru.length ≤ 128 := by
  intro vs
  induction vs with
  | nil => intro s hs; exact hs
  | cons v vs ih =>
    intro s hs
    exact ih _ (getDfAux_lru_length A V B fuel v s hs)

/-- Inserting into the full `lru_cache` store drops exactly the
least-recently-used key (the last one) and keeps every other key. -/
theorem lruInsert_full_keys {β : Type} {c : List (Nat × β)} (k : Nat) (v : β)
    (hc : c.length = 128) :
    (lruInsert 128 k v c).map Prod.fst = k :: (c.map Prod.fst).dropLast := by
  unfold lruInsert
  have hlt : ¬ c.length < 128 := by omega
  simp [if_neg hlt, List.map_dropLast]

/-- A hit on the `lru_cache` store protects the entry from the next
capacity eviction: after touching `k`, inserting any fresh key evicts some
other entry, and `k` is still present. -/
theorem lru_touch_protects {β : Type} {c : List (Nat × β)} {k : Nat} {d : β} (k' : Nat) (v : β)
    (hc : c.length = 128) (hk : alookup k c = some d) :
    alookup k (lruInsert 128 k' v (lruTouch k c)) ≠ none := by
  have he : (eraseKey k c).length + 1 = c.length := length_eraseKey_of_mem hk
  unfold lruTouch
  rw [hk]
  unfold lruInsert
  have hlen : ¬ ((k, d) :: eraseKey k c).length < 128 := by
    simp only [List.length_cons]
    omega
  rw [if_neg hlen]
  rcases hek : eraseKey k c with _ | ⟨q, qs⟩
  · rw [hek] at he
    simp at he
    omega
  · simp only [List.dropLast]
    by_cases hk' : k' = k
    · simp [alookup_cons, hk']
    · rw [alookup_cons]
      simp only [hk', if_false]
      simp [alookup_cons]

/-- C2 (amended): the capacity-128 LRU store with the claimed behaviour is
the global `functools.lru_cache` on `_get_df`, not the per-dataset cache:
after any sequence of materializations it holds at most 128 entries, an
insertion into the full store evicts exactly the least-recently-used entry,
and a hit refreshes recency so the entry survives the next eviction. -/
theorem C2_global_lru_bound_and_eviction {Df : Type} (A : Transform → Df → Option Df)
    (V : Nat → List Transform) (B : Df) (fuel : Nat) (vs : List Nat) (s : MatState Df)
    (c : List (Nat × Df)) (k k' : Nat) (v d : Df)
    (hs : s.lru.length ≤ 128) (hc : c.length = 128) (hk : alookup k c = some d) :
    (matSeq A V B fuel vs s).lru.length ≤ 128 ∧
    (lruInsert 128 k' v c).map Prod.fst = k' :: (c.map Prod.fst).dropLast ∧
    alookup k (lruInsert 128 k' v (lruTouch k c)) ≠ none :=
  ⟨matSeq_lru_length A V B fuel vs s hs,
   lruInsert_full_keys k' v hc,
   lru_touch_protects k' v hc hk⟩

/-- A full concrete 128-entry store used by the C2 witness. -/
def fullStore128 : List (Nat × Nat) := (List.range 128).map (fun i => (i, i))

/-- Witness for C2 (amended) at concrete inputs: an empty state, the full
128-entry store, a hit on key 5 and a fresh key 1000. -/
theorem C2_global_lru_bound_and_eviction_witness :
    (matSeq (fun _ (d : Nat) => some d) (fun _ => []) 0 1 [0, 1, 2] ⟨[], [], [], 0⟩).lru.length ≤ 128 ∧
    (lruInsert 128 1000 1000 fullStore128).map Prod.fst =
      1000 :: (fullStore128.map Prod.fst).dropLast ∧
    alookup 5 (lruInsert 128 1000 1000 (lruTouch 5 fullStore128)) ≠ none :=
  C2_global_lru_bound_and_eviction (fun _ (d : Nat) => some d) (fun _ => []) 0 1 [0, 1, 2]
    ⟨[], [], [], 0⟩ fullStore128 5 1000 1000 5
    (by decide) (by decide) (by decide)

/-- C2 (counterexample): the per-dataset dataframe cache of the source is a
plain `OrderedDict` with no capacity; materializing 129 distinct views leaves
129 entries in it, exceeding the claimed capacity of 128. -/
theorem C2_per_dataset_cache_unbounded :
    (matSeq (fun _ (d : Nat) => some d) (fun _ => []) 0 1 (List.range 129)
      ⟨[], [], [], 0⟩).dfCache.length = 129 ∧ ¬ (129 ≤ 128) := by
  constructor
  · decide
  · omega

theorem alookup_eq_none_iff {κ β : Type} [DecidableEq κ] {k : κ} {l : List (κ × β)} :
    alookup k l = none ↔ ∀ p ∈ l, p.1 ≠ k := by
  induction l with
  | nil => simp
  | cons p ps ih =>
    by_cases hp : p.1 = k
    · simp [alookup_cons, hp]
    · simp [alookup_cons, hp, ih]

theorem alookup_eraseKey {β : Type} {w k : Nat} {c : List (Nat × β)}
    (hw : alookup w c = none) : alookup w (eraseKey k c) = none := by
  induction c with
  | nil => exact hw
  | cons p ps ih =>
    rw [alookup_cons] at hw
    by_cases hp : p.1 = w
    · rw [if_pos hp] at hw
      exact Option.noConfusion hw
    · rw [if_neg hp] at hw
      unfold eraseKey
      by_cases hk : p.1 = k
      · rw [if_pos hk]
        exact hw
      · rw [if_neg hk, alookup_cons, if_neg hp]
        exact ih hw

theorem alookup_lruTouch_none {β : Type} {w k : Nat} {c : List (Nat × β)}
    (hw : alookup w c = none) : alookup w (lruTouch k c) = none := by
  unfold lruTouch
  rcases h : alookup k c with _ | v
  · exact hw
  · have hkw : ¬ (k = w) := by
      rintro rfl
      rw [hw] at h
      exact Option.noConfusion h
    rw [alookup_cons, if_neg hkw]
    exact alookup_eraseKey hw

theorem alookup_dropLast_none {β : Type} {w : Nat} : ∀ (c : List (Nat × β)),
    alookup w c = none → alookup w c.dropLast = none
  | [], h => h
  | [_], _ => rfl
  | p :: q :: ps, h => by
    rw [alookup_cons] at h
    by_cases hp : p.1 = w
    · rw [if_pos hp] at h
      exact Option.noConfusion h
    · rw [if_neg hp] at h
      simp only [List.dropLast]
      rw [alookup_cons, if_neg hp]
      exact alookup_dropLast_none (q :: ps) h

theorem alookup_lruInsert_none {β : Type} {w k cap : Nat} {v : β} {c : List (Nat × β)}
    (hkw : ¬ (k = w)) (hw : alookup w c = none) :
    alookup w (lruInsert cap k v c) = none := by
  unfold lruInsert
  rw [alookup_cons, if_neg hkw]
  by_cases hlt : c.length < cap
  · rw [if_pos hlt]
    exact hw
  · rw [if_neg hlt]
    exact alookup_dropLast_none c hw

theorem alookup_odInsert_ne {β : Type} {w k : Nat} (v : β) (hkw : ¬ (k = w)) :
    ∀ c : List (Nat × β), alookup w (odInsert k v c) = alookup w c
  | [] => by simp [odInsert, alookup_cons, hkw]
  | p :: ps => by
    by_cases hp : p.1 = k
    · simp [odInsert, hp, alookup_cons, hkw]
    · simp only [odInsert, if_neg hp, alookup_cons]
      rw [alookup_odInsert_ne v hkw ps]

theorem alookup_lruTouch_self {β : Type} {k : Nat} {c : List (Nat × β)} {d : β}
    (h : alookup k c = some d) : alookup k (lruTouch k c) = some d := by
  unfold lruTouch
  rw [h, alookup_cons, if_pos rfl]

theorem alookup_lruInsert_self {β : Type} (cap k : Nat) (v : β) (c : List (Nat × β)) :
    alookup k (lruInsert cap k v c) = some v := by
  unfold lruInsert
  rw [alookup_cons, if_pos rfl]

/-- After a successful materialization the result is recorded in the global
`lru_cache` store under the requested view id. -/
theorem getDfAux_ok_lru {Df : Type} {A : Transform → Df → Option Df} {V : Nat → List Transform}
    {B : Df} {fuel v : Nat} {s s' : MatState Df} {df : Df}
    (h : getDfAux A V B fuel v s = (Except.ok df, s')) : alookup v s'.lru = some df := by
  cases fuel with
  | zero => simp [getDfAux] at h
  | succ fuel =>
    simp only [getDfAux] at h
    split at h
    next df0 heq =>
      rw [Prod.mk.injEq] at h
      obtain ⟨hdf, hs⟩ := h
      rw [Except.ok.injEq] at hdf
      subst hdf
      rw [← hs]
      exact alookup_lruTouch_self heq
    next heq =>
      split at h
      next df0 heq2 =>
        rw [Prod.mk.injEq] at h
        obtain ⟨hdf, hs⟩ := h
        rw [Except.ok.injEq] at hdf
        subst hdf
        rw [← hs]
        exact alookup_lruInsert_self 128 v df0 s.lru
      next heq2 =>
        split at h
        next bv heq3 =>
          split at h
          next e s1 heq5 => simp at h
          next df0 s1 heq5 =>
            split at h
            next e cnt heq6 => simp at h
            next df2 cnt heq6 =>
              rw [Prod.mk.injEq] at h
              obtain ⟨hdf, hs⟩ := h
              rw [Except.ok.injEq] at hdf
              subst hdf
              rw [← hs]
              exact alookup_lruInsert_self 128 v df2 s1.lru
        next heq3 =>
          split at h
          next e cnt heq4 => simp at h
          next df2 cnt heq4 =>
            rw [Prod.mk.injEq] at h
            obtain ⟨hdf, hs⟩ := h
            rw [Except.ok.injEq] at hdf
            subst hdf
            rw [← hs]
            exact alookup_lruInsert_self 128 v df2 s.lru

/-- C4: materializing the same view id a second time, with no intervening
invalidation, returns the result of the first call unchanged and applies zero
transforms (the spy count does not move). -/
theorem C4_materialize_idempotent {Df : Type} (A : Transform → Df → Option Df)
    (V : Nat → List Transform) (B : Df) (fuel fuel' v : Nat) (s s1 : MatState Df) (df1 : Df)
    (h : getDfAux A V B fuel v s = (Except.ok df1, s1)) (hf : fuel' ≠ 0) :
    (getDfAux A V B fuel' v s1).1 = Except.ok df1 ∧
    (getDfAux A V B fuel' v s1).2.applyCount = s1.applyCount := by
  have hl : alookup v s1.lru = some df1 := getDfAux_ok_lru h
  cases fuel' with
  | zero => exact absurd rfl hf
  | succ f =>
    refine ⟨?_, ?_⟩ <;> simp [getDfAux, hl]

/-- Witness for C4: a view with one enriching transform over base dataframe 5
is materialized once, then requested again from the committed state. -/
theorem C4_materialize_idempotent_witness :
    (getDfAux (fun _ (d : Nat) => some (d + 1)) (fun _ => [Transform.mk TransformKind.filter 0])
      5 1 0 ⟨[(0, 6)], [(0, 6)], [(0, [Transform.mk TransformKind.filter 0])], 1⟩).1 =
        Except.ok 6 ∧
    (getDfAux (fun _ (d : Nat) => some (d + 1)) (fun _ => [Transform.mk TransformKind.filter 0])
      5 1 0 ⟨[(0, 6)], [(0, 6)], [(0, [Transform.mk TransformKind.filter 0])], 1⟩).2.applyCount =
        1 :=
  C4_materialize_idempotent (fun _ (d : Nat) => some (d + 1))
    (fun _ => [Transform.mk TransformKind.filter 0]) 5 1 1 0 ⟨[], [], [], 0⟩
    ⟨[(0, 6)], [(0, 6)], [(0, [Transform.mk TransformKind.filter 0])], 1⟩ 6 rfl (by decide)

/-- During a materialization of `u`, a view id `w ≠ u` that is absent from
the per-dataset dataframe cache and from the transform index stays absent:
every id the run commits is either `u` itself or comes from the index. -/
theorem getDfAux_preserves_absent {Df : Type} (A : Transform → Df → Option Df)
    (V : Nat → List Transform) (B : Df) :
    ∀ (fuel u : Nat) (s : MatState Df) (w : Nat),
      alookup w s.dfCache = none → alookup w s.index = none → ¬ (u = w) →
      alookup w ((getDfAux A V B fuel u s).2).dfCache = none ∧
      alookup w ((getDfAux A V B fuel u s).2).index = none := by
  intro fuel
  induction fuel with
  | zero => intro u s w hdf hidx _; exact ⟨hdf, hidx⟩
  | succ fuel ih =>
    intro u s w hdf hidx huw
    simp only [getDfAux]
    split
    · exact ⟨hdf, hidx⟩
    · split
      · exact ⟨hdf, hidx⟩
      · split
        next bv heq3 =>
          have hbv : ¬ (bv = w) := by
            obtain ⟨ts, hmem, _⟩ := resolver_mem heq3
            intro hbw
            subst hbw
            exact (alookup_eq_none_iff.mp hidx _ hmem) rfl
          split
          next e s1 heq5 =>
            have h := ih bv s w hdf hidx hbv
            rw [heq5] at h
            exact h
          next df0 s1 heq5 =>
            have h := ih bv s w hdf hidx hbv
            rw [heq5] at h
            split
            · exact h
            · exact ⟨(alookup_odInsert_ne _ huw _).trans h.1,
                (alookup_odInsert_ne _ huw _).trans h.2⟩
        next heq3 =>
          split
          · exact ⟨hdf, hidx⟩
          · exact ⟨(alookup_odInsert_ne _ huw _).trans hdf,
              (alookup_odInsert_ne _ huw _).trans hidx⟩

/-- C5: when the transform application of a materialization fails, the failed
call leaves no dataframe-cache entry and no transform-index entry for the
requested view id (failure is atomic). -/
theorem C5_materialize_failure_atomic {Df : Type} (A : Transform → Df → Option Df)
    (V : Nat → List Transform) (B : Df) (fuel v : Nat) (s s' : MatState Df)
    (hres : getDfAux A V B fuel v s = (Except.error MatErr.transformFailed, s'))
    (hdf : alookup v s.dfCache = none) (hidx : alookup v s.index = none) :
    alookup v s'.dfCache = none ∧ alookup v s'.index = none := by
  cases fuel with
  | zero =>
    rw [getDfAux, Prod.mk.injEq] at hres
    exact absurd hres.1 (by simp)
  | succ fuel =>
    simp only [getDfAux] at hres
    split at hres
    · simp at hres
    · split at hres
      · simp at hres
      · split at hres
        next bv heq3 =>
          have hbv : ¬ (bv = v) := by
            obtain ⟨ts, hmem, _⟩ := resolver_mem heq3
            intro hbw
            subst hbw
            exact (alookup_eq_none_iff.mp hidx _ hmem) rfl
          split at hres
          next e s1 heq5 =>
            rw [Prod.mk.injEq] at hres
            obtain ⟨_, hs⟩ := hres
            have h := getDfAux_preserves_absent A V B fuel bv s v hdf hidx hbv
            rw [heq5] at h
            rw [← hs]
            exact h
          next df0 s1 heq5 =>
            split at hres
            next e cnt heq6 =>
              rw [Prod.mk.injEq] at hres
              obtain ⟨_, hs⟩ := hres
              have h := getDfAux_preserves_absent A V B fuel bv s v hdf hidx hbv
              rw [heq5] at h
              rw [← hs]
              exact h
            next df2 cnt heq6 => simp at hres
        next heq3 =>
          split at hres
          next e cnt heq4 =>
            rw [Prod.mk.injEq] at hres
            obtain ⟨_, hs⟩ := hres
            rw [← hs]
            exact ⟨hdf, hidx⟩
          next df2 cnt heq4 => simp at hres

/-- Witness for C5: a view whose single transform always fails leaves only
the spy count changed; its id is in neither the cache nor the index. -/
theorem C5_materialize_failure_atomic_witness :
    alookup 0 ((⟨[], [], [], 1⟩ : MatState Nat)).dfCache = none ∧
    alookup 0 ((⟨[], [], [], 1⟩ : MatState Nat)).index = none :=
  C5_materialize_failure_atomic (fun _ _ => none)
    (fun _ => [Transform.mk TransformKind.filter 0]) 0 1 0 ⟨[], [], [], 0⟩ ⟨[], [], [], 1⟩
    rfl rfl rfl

/-- During any materialization, an entry already present in the per-dataset
dataframe cache keeps its key and its dataframe. -/
theorem getDfAux_dfCache_persists {Df : Type} (A : Transform → Df → Option Df)
    (V : Nat → List Transform) (B : Df) :
    ∀ (fuel u : Nat) (s : MatState Df) (w : Nat) (df : Df),
      alookup w s.dfCache = some df →
      alookup w ((getDfAux A V B fuel u s).2).dfCache = some df := by
  intro fuel
  induction fuel with
  | zero => intro u s w df h; exact h
  | succ fuel ih =>
    intro u s w df hw
    simp only [getDfAux]
    split
    · exact hw
    · split
      next df0 heq2 => exact hw
      next heq2 =>
        have huw : ¬ (u = w) := by
          intro h
          subst h
          rw [heq2] at hw
          exact Option.noConfusion hw
        split
        next bv heq3 =>
          split
          next e s1 heq5 =>
            have h := ih bv s w df hw
            rw [heq5] at h
            exact h
          next df0 s1 heq5 =>
            have h := ih bv s w df hw
            rw [heq5] at h
            split
            · exact h
            · exact (alookup_odInsert_ne _ huw _).trans h
        next heq3 =>
          split
          · exact hw
          · exact (alookup_odInsert_ne _ huw _).trans hw

/-- C3 (amended): the per-dataset lookup is not synchronized with the global
store: an entry recorded in the per-dataset dataframe cache persists, with
its dataframe, through any later materialization — in particular through the
ones whose insertions evict it from the global `lru_cache` store. -/
theorem C3_per_dataset_entry_persists {Df : Type} (A : Transform → Df → Option Df)
    (V : Nat → List Transform) (B : Df) (fuel u w : Nat) (s : MatState Df) (df : Df)
    (h : alookup w s.dfCache = some df) :
    alookup w ((getDfAux A V B fuel u s).2).dfCache = some df :=
  getDfAux_dfCache_persists A V B fuel u s w df h

/-- Witness for C3 (amended): view 5 is cached per-dataset; materializing
view 7 leaves the entry of view 5 in place. -/
theorem C3_per_dataset_entry_persists_witness :
    alookup 5 ((getDfAux (fun _ (d : Nat) => some d) (fun _ => []) 0 1 7
      ⟨[], [(5, 9)], [], 0⟩).2).dfCache = some 9 :=
  C3_per_dataset_entry_persists (fun _ (d : Nat) => some d) (fun _ => []) 0 1 7 5
    ⟨[], [(5, 9)], [], 0⟩ 9 rfl

/-- C3 (counterexample): after materializing 129 distinct views, view 0 has
been evicted from the global `lru_cache` store yet the per-dataset lookup
still reports it present with its dataframe, so a lookup path returns a
dataframe the global store no longer holds. -/
theorem C3_evicted_entry_still_in_per_dataset_lookup :
    alookup 0 (matSeq (fun _ (d : Nat) => some d) (fun _ => []) 0 1 (List.range 129)
      ⟨[], [], [], 0⟩).lru = none ∧
    alookup 0 (matSeq (fun _ (d : Nat) => some d) (fun _ => []) 0 1 (List.range 129)
      ⟨[], [], [], 0⟩).dfCache = some 0 := by
  constructor <;> decide

/-! ## Corpus and time-weighted token counting (`autocat_lib.py`, §4.4–4.5)

The counting code of `CorpusProcessor` reads a built `Corpus` through the
lookups below; token strings are embedded as `String`, entry identifiers and
ages in weeks as `Nat`. -/

/-- Token occurrence record: the `TokenEntry` named tuple of `autocat_lib.py`
(line 46).  The trailing spaCy token object is dropped: the counting code
reads only `id`, `age` and `dep`. -/
structure TokenOcc : Type where
  id : Nat
  age : Nat
  dep : String
  pos : String
  tag : String
  deriving DecidableEq, Repr

/-- State of a built `Corpus` as read by `CorpusProcessor`: entry ids indexed
by age in weeks, token strings per entry, token occurrences per token string,
and the running age extremes maintained by `Corpus.add_entry`. -/
structure CorpusState : Type where
  ids_by_age : Nat → List Nat
  tokens_by_id : Nat → List String
  token_entry_lookup : String → List TokenOcc
  age_in_weeks_max : Nat
  age_in_weeks_min : Nat

/-- Python `collections.Counter` embedded as an association list in insertion
order. -/
abbrev Counter := List (String × Nat)

/-- Python `counter[token] += n`: the first occurrence of the key is updated
in place, a missing key is appended at the end (also for a zero increment, as
in Python, where the entry is then present with value 0). -/
def counterAdd : Counter → String → Nat → Counter
  | [], t, n => [(t, n)]
  | p :: ps, t, n => if p.1 = t then (t, p.2 + n) :: ps else p :: counterAdd ps t n

/-- Python `counter[token]` read access: 0 for a missing key. -/
def counterGet (tc : Counter) (t : String) : Nat :=
  (alookup t tc).getD 0

/-- Structural floor base-2 logarithm: the value of `int(math.log(n, 2))` in
the source for positive `n` (the embedding uses the exact real logarithm;
`0`, on which Python would raise a domain error, is mapped to `0`). -/
def ilog2Aux : Nat → Nat → Nat
  | 0, _ => 0
  | fuel + 1, n => if n < 2 then 0 else 1 + ilog2Aux fuel (n / 2)

def ilog2 (n : Nat) : Nat := ilog2Aux n n

/-- Value of `max_age_exponent = int(1 + math.log(self.age_in_weeks_max, base))`
in `_get_time_weighted_counts` (line 330), with `base = 2`. -/
def max_age_exponent (C : CorpusState) : Nat := 1 + ilog2 C.age_in_weeks_max

/-- Number of iterations of the window loop of `_get_time_weighted_counts`:
`range(min_age_exponent, max_age_exponent + 1)` with `min_age_exponent = 2`. -/
def num_windows (C : CorpusState) : Nat := max_age_exponent C + 1 - 2

/-- Lower bound of window `i` of `_get_time_weighted_counts`:
`min_age = base ** (age_exponent - 1) + 1` with `age_exponent = 2 + i`. -/
def window_lo (i : Nat) : Nat := 2 ^ (2 + i - 1) + 1

/-- Upper bound of window `i`: `max_age = base ** age_exponent`. -/
def window_hi (i : Nat) : Nat := 2 ^ (2 + i)

/-- Embedding of `CorpusProcessor._count_tokens_in_time_window` (lines
378–411): iterate the ages `range(min_age, max_age + 1)`, the entry ids of
each age (restricted to `entry_ids` when that set is non-empty), and the
token strings of each entry; a token containing an excluded word as a
substring is skipped, otherwise its count grows by the number of its
occurrences with this entry id, age within bounds and an included dependency
role.  The bound `entry.age <= age` of the source's `is_relevant` closure
reads the current loop variable `age`, and so does the embedding. -/
def count_tokens_in_time_window (C : CorpusState) (min_age max_age : Nat)
    (include_deps : List String) (exclude_words : List String)
    (entry_ids : Option (List Nat)) : Counter :=
  (List.range' min_age (max_age + 1 - min_age)).foldl (fun tc age =>
    (C.ids_by_age age).foldl (fun tc entry_id =>
      if entry_ids.getD [] ≠ [] ∧ entry_id ∉ entry_ids.getD [] then tc
      else (C.tokens_by_id entry_id).foldl (fun tc token =>
        if exclude_words.any (fun w => decide (w.data <:+: token.data)) then tc
        else counterAdd tc token
          ((C.token_entry_lookup token).filter (fun e =>
            decide (e.id = entry_id) && decide (min_age ≤ e.age) && decide (e.age ≤ age) &&
            include_deps.contains e.dep)).length) tc) tc) []

/-- Body of the window loop of `_get_time_weighted_counts` (lines 336–356) at
iteration `i`: count the tokens of window `i` and fold them into the weighted
counter with weight `base ** (max_age_exponent - i - 2)`, skipping tokens
shorter than `min_len = 2`. -/
def weightStep (C : CorpusState) (include_deps exclude_words : List String)
    (entry_ids : Option (List Nat)) (wtc : Counter) (i : Nat) : Counter :=
  (count_tokens_in_time_window C (window_lo i) (window_hi i) include_deps exclude_words
      entry_ids).foldl
    (fun wtc p =>
      if p.1.length < 2 then wtc
      else counterAdd wtc p.1 (2 ^ (max_age_exponent C - i - 2) * p.2)) wtc

/-- Embedding of `CorpusProcessor._get_time_weighted_counts` (lines 319–358):
the window loop run over all `num_windows` iterations starting from an empty
counter. -/
def get_time_weighted_counts (C : CorpusState) (include_deps exclude_words : List String)
    (entry_ids : Option (List Nat)) : Counter :=
  (List.range (num_windows C)).foldl (weightStep C include_deps exclude_words entry_ids) []

/-- Dependency roles counted by `_build_category_tree` (line 297): direct
object, object of preposition, sentence root, appositive. -/
def autocatDeps : List String := ["dobj", "pobj", "ROOT", "appos"]

/-- Claim form of the partition property: every age of the corpus range
`[age_in_weeks_min, age_in_weeks_max]` falls into one of the windows the loop
of `_get_time_weighted_counts` enumerates. -/
def windows_cover_range (C : CorpusState) : Prop :=
  ∀ a, C.age_in_weeks_min ≤ a → a ≤ C.age_in_weeks_max →
    ∃ i, i < num_windows C ∧ window_lo i ≤ a ∧ a ≤ window_hi i

/-- Total occurrence mass a token key carries in a counter, summed over every
entry of the key (equal to `counterGet` when the keys are distinct). -/
def entriesSum (tc : Counter) (t : String) : Nat :=
  ((tc.filter (fun p => decide (p.1 = t))).map (fun p => p.2)).sum

theorem counterGet_nil (t : String) : counterGet [] t = 0 := rfl

theorem counterGet_cons (p : String × Nat) (ps : Counter) (t : String) :
    counterGet (p :: ps) t = if p.1 = t then p.2 else counterGet ps t := by
  unfold counterGet
  rw [alookup_cons]
  by_cases hp : p.1 = t
  · rw [if_pos hp, if_pos hp]
    rfl
  · rw [if_neg hp, if_neg hp]

theorem counterGet_counterAdd_self (t : String) (n : Nat) :
    ∀ tc : Counter, counterGet (counterAdd tc t n) t = counterGet tc t + n
  | [] => by simp [counterAdd, counterGet_cons, counterGet_nil]
  | p :: ps => by
    by_cases hp : p.1 = t
    · simp only [counterAdd, if_pos hp, counterGet_cons, if_pos hp]
      simp [hp]
    · simp only [counterAdd, if_neg hp, counterGet_cons, if_neg hp]
      exact counterGet_counterAdd_self t n ps

theorem counterGet_counterAdd_ne {t u : String} (n : Nat) (h : ¬ (t = u)) :
    ∀ tc : Counter, counterGet (counterAdd tc t n) u = counterGet tc u
  | [] => by simp [counterAdd, counterGet_cons, counterGet_nil, h]
  | p :: ps => by
    by_cases hp : p.1 = t
    · simp only [counterAdd, if_pos hp, counterGet_cons]
      rw [if_neg h, if_neg (hp ▸ h)]
    · simp only [counterAdd, if_neg hp, counterGet_cons]
      rw [counterGet_counterAdd_ne n h ps]

theorem mem_keys_counterAdd {u t : String} {n : Nat} :
    ∀ {tc : Counter}, u ∈ (counterAdd tc t n).map Prod.fst → u ∈ tc.map Prod.fst ∨ u = t
  | [], h => by
    simp [counterAdd] at h
    exact Or.inr h
  | p :: ps, h => by
    by_cases hp : p.1 = t
    · rw [counterAdd, if_pos hp] at h
      simp only [List.map_cons, List.mem_cons] at h ⊢
      rcases h with h | h
      · exact Or.inr h
      · exact Or.inl (Or.inr h)
    · rw [counterAdd, if_neg hp] at h
      simp only [List.map_cons, List.mem_cons] at h ⊢
      rcases h with h | h
      · exact Or.inl (Or.inl h)
      · rcases mem_keys_counterAdd h with h2 | h2
        · exact Or.inl (Or.inr h2)
        · exact Or.inr h2

theorem nodupKeys_counterAdd (t : String) (n : Nat) :
    ∀ {tc : Counter}, (tc.map Prod.fst).Nodup → ((counterAdd tc t n).map Prod.fst).Nodup
  | [], _ => by simp [counterAdd]
  | p :: ps, h => by
    by_cases hp : p.1 = t
    · rw [counterAdd, if_pos hp]
      simp only [List.map_cons, List.nodup_cons] at h ⊢
      exact ⟨hp ▸ h.1, h.2⟩
    · rw [counterAdd, if_neg hp]
      simp only [List.map_cons, List.nodup_cons] at h ⊢
      refine ⟨?_, nodupKeys_counterAdd t n h.2⟩
      intro hmem
      rcases mem_keys_counterAdd hmem with h2 | h2
      · exact h.1 h2
      · exact hp h2

theorem entriesSum_nil (t : String) : entriesSum [] t = 0 := rfl

theorem entriesSum_cons (p : String × Nat) (ps : Counter) (t : String) :
    entriesSum (p :: ps) t = (if p.1 = t then p.2 else 0) + entriesSum ps t := by
  unfold entriesSum
  by_cases hp : p.1 = t
  · simp [List.filter_cons, hp]
  · simp [List.filter_cons, hp]

theorem entriesSum_eq_zero_of_not_mem {t : String} :
    ∀ {tc : Counter}, t ∉ tc.map Prod.fst → entriesSum tc t = 0
  | [], _ => rfl
  | p :: ps, h => by
    simp only [List.map_cons, List.mem_cons] at h
    push_neg at h
    rw [entriesSum_cons, if_neg (Ne.symm h.1), entriesSum_eq_zero_of_not_mem h.2]

theorem entriesSum_eq_counterGet {t : String} :
    ∀ {tc : Counter}, (tc.map Prod.fst).Nodup → entriesSum tc t = counterGet tc t
  | [], _ => rfl
  | p :: ps, h => by
    simp only [List.map_cons, List.nodup_cons] at h
    rw [entriesSum_cons, counterGet_cons]
    by_cases hp : p.1 = t
    · rw [if_pos hp, if_pos hp, entriesSum_eq_zero_of_not_mem (hp ▸ h.1)]
      omega
    · rw [if_neg hp, if_neg hp, entriesSum_eq_counterGet h.2]
      omega

/-- Generic preservation of a predicate along a left fold. -/
theorem foldl_preserves {α β : Type} (P : α → Prop) (g : α → β → α)
    (hg : ∀ a b, P a → P (g a b)) : ∀ (l : List β) (a : α), P a → P (l.foldl g a)
  | [], _, h => h
  | b :: l, a, h => foldl_preserves P g hg l (g a b) (hg a b h)

/-- The counter built by `_count_tokens_in_time_window` has pairwise distinct
token keys. -/
theorem nodupKeys_ctitw (C : CorpusState) (min_age max_age : Nat)
    (include_deps exclude_words : List String) (entry_ids : Option (List Nat)) :
    (((count_tokens_in_time_window C min_age max_age include_deps exclude_words
      entry_ids)).map Prod.fst).Nodup := by
  unfold count_tokens_in_time_window
  apply foldl_preserves (fun tc : Counter => (tc.map Prod.fst).Nodup)
  · intro tc age h
    apply foldl_preserves (fun tc : Counter => (tc.map Prod.fst).Nodup)
    · intro tc entry_id h2
      split
      · exact h2
      · apply foldl_preserves (fun tc : Counter => (tc.map Prod.fst).Nodup)
        · intro tc token h3
          split
          · exact h3
          · exact nodupKeys_counterAdd _ _ h3
        · exact h2
    · exact h
  · simp

/-- One application of the window-loop body adds, for every token of length
at least 2, the weighted occurrence mass that token carries in the window's
counter. -/
theorem counterGet_weightStep_fold (w : Nat) (t : String) :
    ∀ (tc : Counter) (wtc : Counter),
      counterGet (tc.foldl (fun wtc p =>
        if p.1.length < 2 then wtc else counterAdd wtc p.1 (w * p.2)) wtc) t =
      counterGet wtc t + (if t.length < 2 then 0 else w * entriesSum tc t)
  | [], wtc => by
    simp [entriesSum_nil]
  | p :: ps, wtc => by
    simp only [List.foldl_cons]
    by_cases hlen : p.1.length < 2
    · rw [if_pos hlen, counterGet_weightStep_fold w t ps wtc, entriesSum_cons]
      by_cases hp : p.1 = t
      · rw [if_pos hp]
        have hlt : t.length < 2 := hp ▸ hlen
        rw [if_pos hlt, if_pos hlt]
      · rw [if_neg hp]
        simp
    · rw [if_neg hlen, counterGet_weightStep_fold w t ps _, entriesSum_cons]
      by_cases hp : p.1 = t
      · rw [if_pos hp]
        have hge : ¬ t.length < 2 := hp ▸ hlen
        rw [if_neg hge, if_neg hge, hp, counterGet_counterAdd_self]
        ring
      · rw [if_neg hp, counterGet_counterAdd_ne _ hp]
        simp


/-- One window-loop iteration adds, for a token of length at least 2, its
weighted occurrence mass of that window. -/
theorem counterGet_weightStep (C : CorpusState) (deps excl : List String)
    (eids : Option (List Nat)) (wtc : Counter) (i : Nat) (t : String) :
    counterGet (weightStep C deps excl eids wtc i) t =
      counterGet wtc t + (if t.length < 2 then 0 else
        2 ^ (max_age_exponent C - i - 2) *
          counterGet (count_tokens_in_time_window C (window_lo i) (window_hi i) deps excl
            eids) t) := by
  unfold weightStep
  rw [counterGet_weightStep_fold,
    entriesSum_eq_counterGet (nodupKeys_ctitw C (window_lo i) (window_hi i) deps excl eids)]

/-- Weighted counter accumulated over the first `n` windows, in closed
form. -/
theorem counterGet_gtwc_aux (C : CorpusState) (deps excl : List String)
    (eids : Option (List Nat)) (t : String) :
    ∀ (n : Nat) (wtc : Counter),
      counterGet ((List.range n).foldl (weightStep C deps excl eids) wtc) t =
      counterGet wtc t + (if t.length < 2 then 0 else
        ((List.range n).map (fun i => 2 ^ (max_age_exponent C - i - 2) *
          counterGet (count_tokens_in_time_window C (window_lo i) (window_hi i) deps excl
            eids) t)).sum) := by
  intro n
  induction n with
  | zero =>
    intro wtc
    simp
  | succ n ih =>
    intro wtc
    rw [List.range_succ, List.foldl_append, List.foldl_cons, List.foldl_nil,
      counterGet_weightStep, ih wtc, List.map_append, List.sum_append]
    simp only [List.map_cons, List.map_nil, List.sum_cons, List.sum_nil]
    by_cases ht2 : t.length < 2
    · rw [if_pos ht2, if_pos ht2, if_pos ht2]
    · rw [if_neg ht2, if_neg ht2, if_neg ht2]
      ring

/-- C6 (amended): for every token of length at least 2, its final weighted
count equals the sum over the windows of `2 ^ (max_age_exponent - i - 2)`
times its count in window `i`; the windows start at `[3, 4]` and tile the
range `[3, 2 ^ max_age_exponent]` contiguously (ages below 3 weeks fall in no
window), and the weight halves from each window to the next older one. -/
theorem C6_time_weighted_counts_formula (C : CorpusState) (deps excl : List String)
    (eids : Option (List Nat)) (t : String) (ht : 2 ≤ t.length) :
    counterGet (get_time_weighted_counts C deps excl eids) t =
      ((List.range (num_windows C)).map (fun i => 2 ^ (max_age_exponent C - i - 2) *
        counterGet (count_tokens_in_time_window C (window_lo i) (window_hi i) deps excl
          eids) t)).sum ∧
    window_lo 0 = 3 ∧
    (∀ i, window_lo (i + 1) = window_hi i + 1) ∧
    (2 ≤ max_age_exponent C → window_hi (num_windows C - 1) = 2 ^ max_age_exponent C) ∧
    (∀ i, i + 1 < num_windows C →
      2 ^ (max_age_exponent C - i - 2) = 2 * 2 ^ (max_age_exponent C - (i + 1) - 2)) := by
  refine ⟨?_, rfl, ?_, ?_, ?_⟩
  · unfold get_time_weighted_counts
    rw [counterGet_gtwc_aux, counterGet_nil, if_neg (by omega), Nat.zero_add]
  · intro i
    unfold window_lo window_hi
    have h : 2 + (i + 1) - 1 = 2 + i := by omega
    rw [h]
  · intro h
    unfold window_hi num_windows
    have h2 : 2 + (max_age_exponent C + 1 - 2 - 1) = max_age_exponent C := by omega
    rw [h2]
  · intro i hi
    unfold num_windows at hi
    have h : max_age_exponent C - i - 2 = (max_age_exponent C - (i + 1) - 2) + 1 := by omega
    rw [h, pow_succ]
    ring

/-- Concrete corpus for C6: entry 0, aged 1 week, contributes token "taxes";
entry 1, aged 4 weeks, contributes token "site"; both are direct objects. -/
def corpusC6 : CorpusState where
  ids_by_age := fun a => if a = 1 then [0] else if a = 4 then [1] else []
  tokens_by_id := fun i => if i = 0 then ["taxes"] else if i = 1 then ["site"] else []
  token_entry_lookup := fun t =>
    if t = "taxes" then [⟨0, 1, "dobj", "NOUN", "NNS"⟩]
    else if t = "site" then [⟨1, 4, "dobj", "NOUN", "NN"⟩] else []
  age_in_weeks_max := 4
  age_in_weeks_min := 1

/-- C6 (counterexample): the windows do not partition the whole age range
`[age_in_weeks_min, age_in_weeks_max]`: on `corpusC6` that range is `[1, 4]`,
the token "taxes" occurs at age 1 with an included dependency role, yet no
window contains age 1 and the token's final weighted count is 0. -/
theorem C6_windows_do_not_cover_age_range :
    ¬ windows_cover_range corpusC6 ∧
    (∃ e ∈ corpusC6.token_entry_lookup ("taxes"),
      corpusC6.age_in_weeks_min ≤ e.age ∧ e.age ≤ corpusC6.age_in_weeks_max ∧
      e.dep ∈ autocatDeps) ∧
    counterGet (get_time_weighted_counts corpusC6 autocatDeps [] none) ("taxes") = 0 := by
  refine ⟨fun h => ?_, by decide, by decide⟩
  obtain ⟨i, _, hlo, _⟩ := h 1 (by decide) (by decide)
  have h2 : (2 : Nat) ^ 1 ≤ 2 ^ (2 + i - 1) := Nat.pow_le_pow_right (by omega) (by omega)
  unfold window_lo at hlo
  rw [pow_one] at h2
  omega

/-- Witness for C6 (amended) at the concrete corpus, for the token "site". -/
theorem C6_time_weighted_counts_formula_witness :
    counterGet (get_time_weighted_counts corpusC6 autocatDeps [] none) ("site") =
      ((List.range (num_windows corpusC6)).map (fun i =>
        2 ^ (max_age_exponent corpusC6 - i - 2) *
        counterGet (count_tokens_in_time_window corpusC6 (window_lo i) (window_hi i)
          autocatDeps [] none) ("site"))).sum ∧
    window_lo 0 = 3 ∧
    (∀ i, window_lo (i + 1) = window_hi i + 1) ∧
    (2 ≤ max_age_exponent corpusC6 → window_hi (num_windows corpusC6 - 1) =
      2 ^ max_age_exponent corpusC6) ∧
    (∀ i, i + 1 < num_windows corpusC6 →
      2 ^ (max_age_exponent corpusC6 - i - 2) =
        2 * 2 ^ (max_age_exponent corpusC6 - (i + 1) - 2)) :=
  C6_time_weighted_counts_formula corpusC6 autocatDeps [] none ("site") (by decide)

/-! ## Category-count heuristic (`CorpusProcessor._category_count_heuristic`,
lines 276–290) -/

/-- Count at a position of a `most_common()` list (0 when out of range). -/
def countAt (cs : List (String × Nat)) (j : Nat) : Nat := (cs.getD j ("", 0)).2

/-- Loop of `_category_count_heuristic`: `i` is the enumeration index,
`topCount` is Python's `top_count` (`None` until the first non-skipped entry
sets it), and `iLast` is the value Python's loop variable `i` retains after
the previous iteration (initialized to 1), which the function returns times 4
when the walk ends without a break.  The integer comparison
`count < top_count / 2` is embedded exactly as `2 * count < top_count`. -/
def cchAux (ignore : Nat) : List (String × Nat) → Nat → Option Nat → Nat → Nat
  | [], _, _, iLast => iLast * 4
  | p :: rest, i, topCount, _ =>
    if i < ignore then cchAux ignore rest (i + 1) topCount i
    else if 2 * p.2 < topCount.getD p.2 then i * 4
    else cchAux ignore rest (i + 1) (some (topCount.getD p.2)) i

/-- Embedding of `CorpusProcessor._category_count_heuristic`: walk the counts
in `most_common()` order, skip the first `ignore_count = 5`, take the count
observed just after the skip as the reference, stop at the first count below
half the reference, return 4 times the index reached. -/
def category_count_heuristic (counts : List (String × Nat)) : Nat :=
  cchAux 5 counts 0 none 1

/-- Active phase of the heuristic's walk: once the reference `c5` is fixed
and the index is past the skip, the walk stops exactly at the first drop
below half the reference. -/
theorem cchAux_active (c5 : Nat) : ∀ (l : List (String × Nat)) (i iL j : Nat),
    5 ≤ i → i ≤ j → j - i < l.length →
    2 * (l.getD (j - i) ("", 0)).2 < c5 →
    (∀ k, k < j - i → ¬ (2 * (l.getD k ("", 0)).2 < c5)) →
    cchAux 5 l i (some c5) iL = j * 4
  | [], i, iL, j, _, _, hlt, _, _ => by simp at hlt
  | p :: rest, i, iL, j, h5, hij, hlt, hdrop, hleast => by
    simp only [cchAux, Option.getD_some]
    rw [if_neg (by omega : ¬ i < 5)]
    by_cases h0 : j - i = 0
    · have hj : j = i := by omega
      rw [h0] at hdrop
      simp only [List.getD_cons_zero] at hdrop
      rw [if_pos hdrop, hj]
    · have hd : ¬ (2 * p.2 < c5) := by
        have h := hleast 0 (by omega)
        simpa using h
      rw [if_neg hd]
      have hm : j - i = (j - (i + 1)) + 1 := by omega
      simp only [List.length_cons] at hlt
      refine cchAux_active c5 rest (i + 1) i j (by omega) (by omega) (by omega) ?_ ?_
      · rw [hm] at hdrop
        simpa using hdrop
      · intro k hk
        have h := hleast (k + 1) (by omega)
        simpa using h

/-- C7: when some count at an index at least 5 drops below half of the count
at index 5 (the reference observed just after the skip), the heuristic
returns `num_categories = 4` times the first such index. -/
theorem C7_category_count_heuristic_first_drop (cs : List (String × Nat)) (j : Nat)
    (h5 : 5 ≤ j) (hlen : j < cs.length)
    (hdrop : 2 * countAt cs j < countAt cs 5)
    (hleast : ∀ j', 5 ≤ j' → j' < j → ¬ (2 * countAt cs j' < countAt cs 5)) :
    category_count_heuristic cs = j * 4 := by
  rcases cs with _ | ⟨a0, cs⟩
  · simp at hlen
  rcases cs with _ | ⟨a1, cs⟩
  · simp at hlen
    omega
  rcases cs with _ | ⟨a2, cs⟩
  · simp at hlen
    omega
  rcases cs with _ | ⟨a3, cs⟩
  · simp at hlen
    omega
  rcases cs with _ | ⟨a4, cs⟩
  · simp at hlen
    omega
  rcases cs with _ | ⟨a5, cs⟩
  · simp at hlen
    omega
  have hc5 : countAt (a0 :: a1 :: a2 :: a3 :: a4 :: a5 :: cs) 5 = a5.2 := by
    simp [countAt]
  have hj6 : 6 ≤ j := by
    rcases Nat.lt_or_ge j 6 with hj | hj
    · exfalso
      have hj5 : j = 5 := by omega
      rw [hj5, hc5] at hdrop
      omega
    · exact hj
  obtain ⟨m, rfl⟩ : ∃ m, j = m + 6 := ⟨j - 6, by omega⟩
  unfold category_count_heuristic
  simp only [cchAux]
  norm_num
  rw [if_neg (by omega : ¬ (2 * a5.2 < a5.2))]
  refine cchAux_active a5.2 cs 6 5 (m + 6) (by omega) (by omega) ?_ ?_ ?_
  · simp only [List.length_cons] at hlen
    omega
  · rw [hc5] at hdrop
    simp only [countAt] at hdrop
    have h6 : m + 6 - 6 = m := by omega
    rw [h6]
    simpa [List.getD_cons_succ] using hdrop
  · intro k hk
    have h := hleast (k + 6) (by omega) (by omega)
    rw [hc5] at h
    simp only [countAt] at h
    simpa [List.getD_cons_succ] using h

/-- Witness for C7 on a concrete descending count list: the reference after
the skip is 8, and the first count below 4 sits at index 7. -/
theorem C7_category_count_heuristic_first_drop_witness :
    category_count_heuristic
      [("a", 10), ("b", 10), ("c", 10), ("d", 10), ("e", 10), ("f", 8), ("g", 7), ("h", 3)] =
      7 * 4 :=
  C7_category_count_heuristic_first_drop
    [("a", 10), ("b", 10), ("c", 10), ("d", 10), ("e", 10), ("f", 8), ("g", 7), ("h", 3)]
    7 (by omega) (by decide) (by decide)
    (fun j' h1 h2 => by
      have h : j' = 5 ∨ j' = 6 := by omega
      rcases h with rfl | rfl <;> decide)

/-! ## History keys (`HistoryKey` of `data_view/handler.py`, lines 24–44)

Identifier strings are embedded as `List Char`; `splitSep` embeds Python's
`str.split(sep)` for a one-character separator (no collapsing of empty
parts: `"a__b".split("_") == ["a", "", "b"]`, `"".split("_") == [""]`). -/

def splitSep (sep : Char) : List Char → List (List Char)
  | [] => [[]]
  | c :: cs =>
    if c = sep then [] :: splitSep sep cs
    else
      match splitSep sep cs with
      | [] => [[c]]
      | p :: ps => (c :: p) :: ps

/-- The `SEPARATOR = "_"` class constant of `HistoryKey`. -/
def SEPARATOR : Char := '_'

/-- The `HistoryKey` tuple of a user id and a dataset id. -/
structure HistoryKey : Type where
  user_id : List Char
  dataset_id : List Char
  deriving DecidableEq, Repr

/-- `HistoryKey.serialize`: `self.SEPARATOR.join([self.user_id,
self.dataset_id])`. -/
def HistoryKey.serialize (k : HistoryKey) : List Char :=
  k.user_id ++ SEPARATOR :: k.dataset_id

/-- `HistoryKey.deserialize`: `user_id, dataset_id = s.split(cls.SEPARATOR)`
followed by reconstruction; the two-element unpacking raises (`none`) when
the split does not yield exactly two parts. -/
def HistoryKey.deserialize (s : List Char) : Option HistoryKey :=
  match splitSep SEPARATOR s with
  | [u, d] => some ⟨u, d⟩
  | _ => none

theorem splitSep_ne_nil (sep : Char) : ∀ l : List Char, splitSep sep l ≠ []
  | [] => by simp [splitSep]
  | c :: cs => by
    unfold splitSep
    by_cases hc : c = sep
    · simp [hc]
    · rw [if_neg hc]
      rcases h : splitSep sep cs with _ | ⟨p, ps⟩ <;> simp

theorem splitSep_of_not_mem (sep : Char) : ∀ {l : List Char}, sep ∉ l →
    splitSep sep l = [l]
  | [], _ => rfl
  | c :: cs, h => by
    simp only [List.mem_cons] at h
    push_neg at h
    unfold splitSep
    rw [if_neg (fun hc => h.1 hc.symm), splitSep_of_not_mem sep h.2]

theorem splitSep_append (sep : Char) (d : List Char) : ∀ {u : List Char}, sep ∉ u →
    splitSep sep (u ++ sep :: d) = u :: splitSep sep d
  | [], _ => by simp [splitSep]
  | c :: cs, h => by
    simp only [List.mem_cons] at h
    push_neg at h
    simp only [List.cons_append, splitSep]
    rw [if_neg (fun hc => h.1 hc.symm)]
    simp only [List.append_eq]
    rw [splitSep_append sep d h.2]

/-- C10: a history key whose two ids avoid the separator survives the
serialize/deserialize round trip; a key whose user id contains the separator
does not come back, and serialization is not injective on such keys. -/
theorem C10_history_key_round_trip :
    (∀ u d : List Char, SEPARATOR ∉ u → SEPARATOR ∉ d →
      HistoryKey.deserialize (HistoryKey.serialize ⟨u, d⟩) = some ⟨u, d⟩) ∧
    (∃ k : HistoryKey, SEPARATOR ∈ k.user_id ∧
      HistoryKey.deserialize (HistoryKey.serialize k) ≠ some k) ∧
    (∃ k k' : HistoryKey, ¬ (k = k') ∧
      HistoryKey.serialize k = HistoryKey.serialize k') := by
  refine ⟨?_, ?_, ?_⟩
  · intro u d hu hd
    unfold HistoryKey.deserialize HistoryKey.serialize
    rw [splitSep_append SEPARATOR d hu, splitSep_of_not_mem SEPARATOR hd]
  · refine ⟨⟨['a', '_', 'b'], ['c']⟩, by decide, by decide⟩
  · exact ⟨⟨['a', '_', 'b'], ['c']⟩, ⟨['a'], ['b', '_', 'c']⟩, by decide, by decide⟩

/-- Witness for C10 at concrete separator-free ids. -/
theorem C10_history_key_round_trip_witness :
    HistoryKey.deserialize (HistoryKey.serialize ⟨['1', '1', '1'], ['2', '2']⟩) =
      some ⟨['1', '1', '1'], ['2', '2']⟩ :=
  C10_history_key_round_trip.1 ['1', '1', '1'] ['2', '2'] (by decide) (by decide)

end Whitex
